import Mathlib

/-!
Verification development for the ContractBot repository.

Shallow embedding of the pure core of `contractbot/parsing.py`,
`contractbot/ocr.py`, `contractbot/adb.py` and `contractbot/database.py`,
followed by theorems settling the specification claims.

Python strings are modelled as `List Char` (`Str`); Python floats as `ℚ`;
SQLite tables as association lists keyed by their primary keys; fallible
code returns `Option`/`Except`.
-/

namespace ContractBot

/-- Python strings are modelled as lists of characters. -/
abbrev Str := List Char

/-- ASCII model of Python's regex class `\s` (and of `str.strip()` /
`str.split()` whitespace). -/
def isPySpace (c : Char) : Bool :=
  c = ' ' || c = '\t' || c = '\n' || c = '\r' || c = '\x0b' || c = '\x0c'

/-- Python's regex class `\d` (ASCII digits). -/
def isDigitB (c : Char) : Bool :=
  '0' ≤ c && c ≤ '9'

/-- The punctuation allow-list of `SANITIZE_REGEX` in `parsing.py`:
`\-_'"()[]{}.,:;!?` and the space. -/
def punctChars : List Char :=
  ['-', '_', '\x27', '\x22', '(', ')', '[', ']', '\x7b', '\x7d',
   '.', ',', ':', ';', '!', '?', ' ']

/-- The complement of `SANITIZE_REGEX`'s character class: Latin letters,
Cyrillic letters (`А-Яа-яЁё`), digits, and the punctuation allow-list. -/
def allowedChar (c : Char) : Bool :=
  isDigitB c
    || ('A' ≤ c && c ≤ 'Z') || ('a' ≤ c && c ≤ 'z')
    || ('А' ≤ c && c ≤ 'я') || c = 'Ё' || c = 'ё'
    || punctChars.contains c

/-- Python `str.strip()` from the left only. -/
def lstrip (l : Str) : Str := l.dropWhile isPySpace

/-- Python `str.strip()`: drop leading and trailing whitespace. -/
def pyStrip (l : Str) : Str := ((lstrip l).reverse.dropWhile isPySpace).reverse

/-- `SANITIZE_REGEX.sub(" ", name)`, one character at a time: the flag
records whether we are inside a run of disallowed characters, which is
replaced by a single space as a whole. -/
def subRunsAux : Bool → Str → Str
  | _, [] => []
  | inRun, c :: rest =>
    if allowedChar c then c :: subRunsAux false rest
    else if inRun then subRunsAux true rest
    else ' ' :: subRunsAux true rest

/-- `SANITIZE_REGEX.sub(" ", name)`: each maximal run of characters outside
the allow-list is replaced by a single space. -/
def subRuns (l : Str) : Str := subRunsAux false l

/-- `re.sub(r"\s+", " ", cleaned)`, one character at a time: the flag
records whether we are inside a whitespace run, which becomes a single
space as a whole. -/
def collapseWsAux : Bool → Str → Str
  | _, [] => []
  | inWs, c :: rest =>
    if isPySpace c then
      if inWs then collapseWsAux true rest
      else ' ' :: collapseWsAux true rest
    else c :: collapseWsAux false rest

/-- `re.sub(r"\s+", " ", cleaned)`: each maximal whitespace run becomes a
single space. -/
def collapseWs (l : Str) : Str := collapseWsAux false l

/-- `sanitize_item_name` from `parsing.py`: substitute disallowed runs with
a space, collapse whitespace, strip. -/
def sanitize_item_name (name : Str) : Str :=
  pyStrip (collapseWs (subRuns name))

/-! ### Well-formedness of sanitized text -/

/-- `true` iff the first character exists and is whitespace. -/
def headIsSpace (l : Str) : Bool :=
  l.head?.elim false isPySpace

/-- No two adjacent whitespace characters. -/
def NoWsRun (l : Str) : Prop :=
  List.Chain' (fun a b => ¬(isPySpace a = true ∧ isPySpace b = true)) l

/-- The shape `sanitize_item_name` guarantees: only allowed characters,
no adjacent whitespace, and no leading or trailing whitespace. -/
def Sanitized (l : Str) : Prop :=
  (∀ c ∈ l, allowedChar c = true) ∧ NoWsRun l ∧
    headIsSpace l = false ∧ headIsSpace l.reverse = false

lemma allowedChar_space : allowedChar ' ' = true := by decide

lemma allowed_ws_eq_space {c : Char} (ha : allowedChar c = true)
    (hw : isPySpace c = true) : c = ' ' := by
  by_contra hne
  have hdis : c = '\t' ∨ c = '\n' ∨ c = '\r' ∨ c = '\x0b' ∨ c = '\x0c' := by
    simp only [isPySpace, Bool.or_eq_true, decide_eq_true_eq] at hw
    tauto
  rcases hdis with h | h | h | h | h <;> subst h <;> exact absurd ha (by decide)

lemma subRunsAux_mem (l : Str) : ∀ (b : Bool), ∀ c ∈ subRunsAux b l,
    allowedChar c = true := by
  induction l with
  | nil => intro b c hc; simp [subRunsAux] at hc
  | cons c rest ih =>
    intro b d hd
    by_cases hc : allowedChar c = true
    · rw [subRunsAux, if_pos hc] at hd
      rcases List.mem_cons.mp hd with rfl | hd
      · exact hc
      · exact ih false d hd
    · cases b with
      | true =>
        rw [subRunsAux, if_neg hc, if_pos rfl] at hd
        exact ih true d hd
      | false =>
        rw [subRunsAux, if_neg hc, if_neg (by simp)] at hd
        rcases List.mem_cons.mp hd with rfl | hd
        · exact allowedChar_space
        · exact ih true d hd

lemma subRuns_mem {l : Str} : ∀ c ∈ subRuns l, allowedChar c = true :=
  subRunsAux_mem l false

lemma subRuns_eq_self {l : Str} (h : ∀ c ∈ l, allowedChar c = true) :
    subRuns l = l := by
  rw [subRuns]
  induction l with
  | nil => rfl
  | cons c rest ih =>
    rw [subRunsAux, if_pos (h c (List.mem_cons_self c rest))]
    rw [ih (fun d hd => h d (List.mem_cons_of_mem c hd))]

lemma collapseWsAux_mem (l : Str) : ∀ (b : Bool), ∀ c ∈ collapseWsAux b l,
    c = ' ' ∨ c ∈ l := by
  induction l with
  | nil => intro b c hc; simp [collapseWsAux] at hc
  | cons c rest ih =>
    intro b d hd
    by_cases hw : isPySpace c = true
    · have hrec : d ∈ collapseWsAux true rest ∨ d = ' ' := by
        cases b with
        | true =>
          rw [collapseWsAux, if_pos hw, if_pos rfl] at hd
          exact Or.inl hd
        | false =>
          rw [collapseWsAux, if_pos hw, if_neg (by simp)] at hd
          rcases List.mem_cons.mp hd with rfl | hd
          · exact Or.inr rfl
          · exact Or.inl hd
      rcases hrec with hd' | rfl
      · rcases ih true d hd' with h' | h'
        · exact Or.inl h'
        · exact Or.inr (List.mem_cons_of_mem c h')
      · exact Or.inl rfl
    · rw [collapseWsAux, if_neg hw] at hd
      rcases List.mem_cons.mp hd with rfl | hd
      · exact Or.inr (List.mem_cons_self d rest)
      · rcases ih false d hd with h' | h'
        · exact Or.inl h'
        · exact Or.inr (List.mem_cons_of_mem c h')

lemma collapseWs_mem {l : Str} : ∀ c ∈ collapseWs l, c = ' ' ∨ c ∈ l :=
  collapseWsAux_mem l false

lemma headIsSpace_dropWhile (l : Str) :
    headIsSpace (l.dropWhile isPySpace) = false := by
  induction l with
  | nil => rfl
  | cons c rest ih =>
    by_cases h : isPySpace c = true
    · rw [List.dropWhile_cons, if_pos h]; exact ih
    · rw [List.dropWhile_cons, if_neg h]
      simpa [headIsSpace] using h

lemma headIsSpace_collapseWsAux_true (l : Str) :
    headIsSpace (collapseWsAux true l) = false := by
  induction l with
  | nil => rfl
  | cons c rest ih =>
    by_cases h : isPySpace c = true
    · rw [collapseWsAux, if_pos h, if_pos rfl]
      exact ih
    · rw [collapseWsAux, if_neg h]
      simpa [headIsSpace] using h

lemma headIsSpace_collapseWs (l : Str) :
    headIsSpace (collapseWs l) = headIsSpace l := by
  cases l with
  | nil => rfl
  | cons c rest =>
    by_cases h : isPySpace c = true
    · rw [collapseWs, collapseWsAux, if_pos h, if_neg (by simp)]
      simp [headIsSpace, h]
      decide
    · rw [collapseWs, collapseWsAux, if_neg h]
      simp [headIsSpace]

lemma noWsRun_collapseWsAux (l : Str) : ∀ b : Bool,
    NoWsRun (collapseWsAux b l) := by
  induction l with
  | nil => intro b; exact List.chain'_nil
  | cons c rest ih =>
    intro b
    by_cases h : isPySpace c = true
    · cases b with
      | true =>
        rw [collapseWsAux, if_pos h, if_pos rfl]
        exact ih true
      | false =>
        rw [collapseWsAux, if_pos h, if_neg (by simp)]
        refine List.chain'_cons'.mpr ⟨?_, ih true⟩
        intro d hd
        have hhead := headIsSpace_collapseWsAux_true rest
        intro ⟨_, hws⟩
        rw [headIsSpace, Option.mem_def.mp hd] at hhead
        simp [hws] at hhead
    · rw [collapseWsAux, if_neg h]
      refine List.chain'_cons'.mpr ⟨?_, ih false⟩
      intro d _ ⟨hws, _⟩
      exact h hws

lemma noWsRun_collapseWs (l : Str) : NoWsRun (collapseWs l) :=
  noWsRun_collapseWsAux l false

lemma collapseWsAux_eq_self {l : Str} (hc : NoWsRun l)
    (hs : ∀ c ∈ l, isPySpace c = true → c = ' ') :
    collapseWsAux false l = l ∧
      (headIsSpace l = false → collapseWsAux true l = l) := by
  induction l with
  | nil => exact ⟨rfl, fun _ => rfl⟩
  | cons c rest ih =>
    have htail := ih (List.chain'_cons'.mp hc).2
      (fun d hd => hs d (List.mem_cons_of_mem c hd))
    by_cases hw : isPySpace c = true
    · have hcs : c = ' ' := hs c (List.mem_cons_self c rest) hw
      have hrest : headIsSpace rest = false := by
        cases rest with
        | nil => rfl
        | cons d r =>
          have hb : ¬(isPySpace c = true ∧ isPySpace d = true) :=
            (List.chain'_cons'.mp hc).1 d rfl
          have : isPySpace d = false := by
            cases hdd : isPySpace d
            · rfl
            · exact absurd ⟨hw, hdd⟩ hb
          simp [headIsSpace, this]
      constructor
      · rw [collapseWsAux, if_pos hw, if_neg (by simp), htail.2 hrest, hcs]
      · intro hhead
        rw [show headIsSpace (c :: rest) = isPySpace c from rfl] at hhead
        exact absurd hw (by simp [hhead])
    · constructor
      · rw [collapseWsAux, if_neg hw, htail.1]
      · intro _
        rw [collapseWsAux, if_neg hw, htail.1]

lemma collapseWs_eq_self {l : Str} (hc : NoWsRun l)
    (hs : ∀ c ∈ l, isPySpace c = true → c = ' ') : collapseWs l = l :=
  (collapseWsAux_eq_self hc hs).1

lemma pyStrip_infix_of_self (l : Str) : pyStrip l <:+: l := by
  unfold pyStrip lstrip
  have h1 : l.dropWhile isPySpace <:+ l := List.dropWhile_suffix _
  have h2 : (l.dropWhile isPySpace).reverse.dropWhile isPySpace <:+
      (l.dropWhile isPySpace).reverse := List.dropWhile_suffix _
  have h3 : ((l.dropWhile isPySpace).reverse.dropWhile isPySpace).reverse <+:
      l.dropWhile isPySpace :=
    List.reverse_suffix.mp (by rw [List.reverse_reverse]; exact h2)
  exact h3.isInfix.trans h1.isInfix

lemma pyStrip_subset (l : Str) : pyStrip l ⊆ l := (pyStrip_infix_of_self l).subset

lemma noWsRun_pyStrip {l : Str} (h : NoWsRun l) : NoWsRun (pyStrip l) :=
  h.infix (pyStrip_infix_of_self l)

lemma getLast?_of_suffix {l₁ l₂ : Str} (h : l₁ <:+ l₂) (hne : l₁ ≠ []) :
    l₁.getLast? = l₂.getLast? := by
  obtain ⟨t, ht⟩ := h
  rw [← ht, List.getLast?_append_of_ne_nil t hne]

lemma headIsSpace_reverse_pyStrip (l : Str) :
    headIsSpace (pyStrip l).reverse = false := by
  unfold pyStrip
  rw [List.reverse_reverse]
  exact headIsSpace_dropWhile _

lemma headIsSpace_pyStrip (l : Str) : headIsSpace (pyStrip l) = false := by
  unfold pyStrip
  set m := lstrip l with hm
  by_cases hn : m.reverse.dropWhile isPySpace = []
  · rw [hn]; rfl
  · have hlast : (m.reverse.dropWhile isPySpace).getLast? = m.reverse.getLast? :=
      getLast?_of_suffix (List.dropWhile_suffix _) hn
    have hult : headIsSpace m = false := headIsSpace_dropWhile l
    rw [headIsSpace] at hult ⊢
    rw [List.head?_reverse, hlast, List.getLast?_reverse]
    exact hult

lemma pyStrip_eq_self {l : Str} (h1 : headIsSpace l = false)
    (h2 : headIsSpace l.reverse = false) : pyStrip l = l := by
  have drop_id : ∀ m : Str, headIsSpace m = false → m.dropWhile isPySpace = m := by
    intro m hm
    cases m with
    | nil => rfl
    | cons c rest =>
      simp only [headIsSpace, List.head?_cons, Option.elim] at hm
      rw [List.dropWhile_cons, if_neg (by simp [hm])]
  unfold pyStrip lstrip
  rw [drop_id l h1, drop_id l.reverse h2, List.reverse_reverse]

lemma sanitize_sanitized (s : Str) : Sanitized (sanitize_item_name s) := by
  refine ⟨?_, ?_, ?_, ?_⟩
  · intro c hc
    have hc' := pyStrip_subset _ hc
    rcases collapseWs_mem _ hc' with rfl | hmem
    · exact allowedChar_space
    · exact subRuns_mem _ hmem
  · exact noWsRun_pyStrip (noWsRun_collapseWs _)
  · exact headIsSpace_pyStrip _
  · exact headIsSpace_reverse_pyStrip _

lemma sanitize_eq_self {l : Str} (h : Sanitized l) : sanitize_item_name l = l := by
  obtain ⟨hall, hrun, hhd, htl⟩ := h
  unfold sanitize_item_name
  rw [subRuns_eq_self hall,
      collapseWs_eq_self hrun (fun c hc hw => allowed_ws_eq_space (hall c hc) hw),
      pyStrip_eq_self hhd htl]

lemma sanitize_idem (s : Str) :
    sanitize_item_name (sanitize_item_name s) = sanitize_item_name s :=
  sanitize_eq_self (sanitize_sanitized s)

/-! ### Splitting helpers (`str.splitlines`, `str.split`, `re.split`) -/

/-- Prepend a character to the first piece of a split result. -/
def consHead (c : Char) : List Str → List Str
  | [] => [[c]]
  | p :: ps => (c :: p) :: ps

/-- Python `str.splitlines()` restricted to the newline character: split at
each `\n`, with no trailing empty line. -/
def splitlines : Str → List Str
  | [] => []
  | c :: rest =>
    if c = '\n' then [] :: splitlines rest
    else consHead c (splitlines rest)

/-- Python `str.split()` with no argument: split on whitespace runs,
dropping empty tokens.  A non-space character continues the first token of
the remainder's split exactly when the next character is not whitespace. -/
def pySplitWs : Str → List Str
  | [] => []
  | c :: rest =>
    if isPySpace c then pySplitWs rest
    else
      match rest with
      | [] => [[c]]
      | d :: _ =>
        if isPySpace d then [c] :: pySplitWs rest
        else consHead c (pySplitWs rest)

/-- `MULTISPACE_REGEX.split(line)` for `\s{2,}`, one character at a time:
the flag records whether we are inside a separator run (a maximal
whitespace run of length at least 2, detected by one-character lookahead);
single whitespace characters stay inside pieces, and pieces may be
empty. -/
def splitRuns2Aux : Bool → Str → List Str
  | _, [] => [[]]
  | inSep, c :: rest =>
    if inSep then
      if isPySpace c then splitRuns2Aux true rest
      else consHead c (splitRuns2Aux false rest)
    else
      if isPySpace c && headIsSpace rest then [] :: splitRuns2Aux true rest
      else consHead c (splitRuns2Aux false rest)

/-- `MULTISPACE_REGEX.split(line)` for `\s{2,}`: cut the string at each
maximal whitespace run of length at least two. -/
def splitRuns2 (l : Str) : List Str := splitRuns2Aux false l

/-! ### A regex matcher for `LINE_REGEX` (Brzozowski derivatives) -/

/-- Small regular-expression syntax, enough for
`LINE_REGEX = ^\d+\s+.+?\s+[\d\.,]+\s+[\d\.,]+$`.  Since only the
existence of a match matters, the lazy `+?` is equivalent to `+`. -/
inductive RE where
  | fail : RE
  | eps : RE
  | cls : (Char → Bool) → RE
  | cat : RE → RE → RE
  | alt : RE → RE → RE
  | star : RE → RE

/-- Does the regex accept the empty string? -/
def RE.nullable : RE → Bool
  | .fail => false
  | .eps => true
  | .cls _ => false
  | .cat a b => a.nullable && b.nullable
  | .alt a b => a.nullable || b.nullable
  | .star _ => true

/-- Brzozowski derivative of a regex with respect to one character. -/
def RE.deriv : RE → Char → RE
  | .fail, _ => .fail
  | .eps, _ => .fail
  | .cls p, c => if p c then .eps else .fail
  | .cat a b, c =>
    if a.nullable then .alt (.cat (a.deriv c) b) (b.deriv c)
    else .cat (a.deriv c) b
  | .alt a b, c => .alt (a.deriv c) (b.deriv c)
  | .star a, c => .cat (a.deriv c) (.star a)

/-- Full-string regex match. -/
def RE.rmatch (r : RE) (s : Str) : Bool :=
  (s.foldl RE.deriv r).nullable

/-- `r+`. -/
def RE.plus (r : RE) : RE := .cat r (.star r)

/-- The character class `[\d\.,]`. -/
def isNumChar (c : Char) : Bool := isDigitB c || c = '.' || c = ','

/-- `LINE_REGEX = ^\d+\s+.+?\s+[\d\.,]+\s+[\d\.,]+$` from `parsing.py`
(`.` does not match a newline). -/
def LINE_REGEX : RE :=
  .cat (RE.plus (.cls isDigitB))
    (.cat (RE.plus (.cls isPySpace))
      (.cat (RE.plus (.cls (fun c => c ≠ '\n')))
        (.cat (RE.plus (.cls isPySpace))
          (.cat (RE.plus (.cls isNumChar))
            (.cat (RE.plus (.cls isPySpace))
              (RE.plus (.cls isNumChar)))))))

/-! ### Python `float()` (finite decimal forms) -/

/-- Numeric value of a digit string. -/
def digitsVal (l : Str) : ℕ :=
  l.foldl (fun n c => n * 10 + (c.toNat - '0'.toNat)) 0

/-- Exponent suffix `[eE][+-]?digits` followed by end of string,
applied to mantissa `m`. -/
def pyFloatExp (m : ℚ) : Str → Option ℚ
  | [] => some m
  | e :: rest =>
    if e = 'e' || e = 'E' then
      let (sgn, rest') : ℤ × Str :=
        match rest with
        | '+' :: r => (1, r)
        | '-' :: r => (-1, r)
        | r => (1, r)
      let ds := rest'.takeWhile isDigitB
      let tail := rest'.dropWhile isDigitB
      if ds = [] || tail ≠ [] then none
      else some (m * (10 : ℚ) ^ (sgn * (digitsVal ds : ℤ)))
    else none

/-- Model of Python `float(s)` on its finite decimal forms
(`[+-]? (digits [. digits?] | . digits) ([eE][+-]?digits)?`, with
surrounding whitespace ignored).  `inf`/`nan` and digit-group
underscores are outside the model; the parser here is used by the
embedded code only as a success/failure filter plus the parsed value. -/
def pyFloat (s : Str) : Option ℚ :=
  let t := pyStrip s
  let (neg, t) : Bool × Str :=
    match t with
    | '+' :: r => (false, r)
    | '-' :: r => (true, r)
    | r => (false, r)
  let ip := t.takeWhile isDigitB
  let r1 := t.dropWhile isDigitB
  let core : Option ℚ :=
    match r1 with
    | '.' :: r2 =>
      let fp := r2.takeWhile isDigitB
      let r3 := r2.dropWhile isDigitB
      if ip = [] && fp = [] then none
      else pyFloatExp ((digitsVal ip : ℚ) + (digitsVal fp : ℚ) / (10 : ℚ) ^ fp.length) r3
    | _ => if ip = [] then none else pyFloatExp (digitsVal ip : ℚ) r1
  core.map (fun q => if neg then -q else q)

/-! ### `extract_system` and the composition parser -/

/-- Index of the first occurrence of `c`, or `none`
(Python `str.find` returns `-1` for `none`). -/
def pyFind (l : Str) (c : Char) : Option ℕ :=
  match l with
  | [] => none
  | d :: rest => if d = c then some 0 else (pyFind rest c).map (· + 1)

/-- `extract_system` from `parsing.py`: strip, then cut before the first
`-` when its index is greater than 5. -/
def extract_system (raw : Str) : Str :=
  let text := pyStrip raw
  match pyFind text '-' with
  | some pos => if 5 < pos then pyStrip (text.take pos) else text
  | none => text

/-- One parsed composition row. -/
structure ContractItem where
  item_name : Str
  quantity : ℚ
  est_value : ℚ
  deriving DecidableEq, Repr

/-- `str.replace(",", ".")`. -/
def commaToDot (l : Str) : Str :=
  l.map (fun c => if c = ',' then '.' else c)

/-- The tokenization step of `CompositionParser.parse_lines`: whitespace
split when `LINE_REGEX` matches the stripped line, otherwise a split on
whitespace runs of length ≥ 2 with empty pieces removed. -/
def partsOf (line : Str) : List Str :=
  if LINE_REGEX.rmatch line then line |> pySplitWs
  else (splitRuns2 line).filter (fun p => p ≠ [])

/-- The body of `parse_lines`' per-line loop: `none` stands for
`continue`. -/
def parseLine (raw_line : Str) : Option ContractItem :=
  let line := pyStrip raw_line
  if line = [] then none
  else
    let parts := partsOf line
    if parts.length < 4 then none
    else
      let qty_raw := parts.getD (parts.length - 2) []
      let est_raw := parts.getD (parts.length - 1) []
      let name := sanitize_item_name
        (List.intercalate [' '] ((parts.drop 1).take (parts.length - 3)))
      match pyFloat (commaToDot qty_raw), pyFloat (commaToDot est_raw) with
      | some quantity, some est_value =>
        if name = [] then none
        else some ⟨name, quantity, est_value⟩
      | _, _ => none

/-- `CompositionParser.parse_lines` from `parsing.py`. -/
def parse_lines (text : Str) : List ContractItem :=
  (splitlines text).filterMap parseLine

/-! ### `OcrEngine._safe_crop` and `OcrEngine.crop_box` (`ocr.py`) -/

/-- A crop rectangle `(left, top, right, bottom)`. -/
structure CropRect where
  left : ℤ
  top : ℤ
  right : ℤ
  bottom : ℤ
  deriving DecidableEq, Repr

/-- `OcrEngine._safe_crop`: reject a box that is not 4 numbers; sort each
axis; clamp to the image bounds; reject a rectangle with zero or negative
area; otherwise return the crop rectangle (`image.crop` itself is the
external raster operation). -/
def safe_crop (width height : ℕ) (box : List ℤ) : Option CropRect :=
  match box with
  | [l, t, r, b] =>
    let left := min l r
    let right := max l r
    let top := min t b
    let bottom := max t b
    let left := max 0 (min (width : ℤ) left)
    let right := max 0 (min (width : ℤ) right)
    let top := max 0 (min (height : ℤ) top)
    let bottom := max 0 (min (height : ℤ) bottom)
    if right ≤ left || bottom ≤ top then none
    else some ⟨left, top, right, bottom⟩
  | _ => none

/-- `OcrEngine.crop_box`: look the region up by name (an unconfigured or
falsy — empty — box yields `none` with a warning), then `_safe_crop`. -/
def crop_box (width height : ℕ) (box_name : Str)
    (ocr_boxes : List (Str × List ℤ)) : Option CropRect :=
  match ocr_boxes.lookup box_name with
  | none => none
  | some box => if box = [] then none else safe_crop width height box

/-! ### `ADBClient.execute_steps` (`adb.py`) -/

/-- `str.lower()` (ASCII model). -/
def strLower (l : Str) : Str := l.map Char.toLower

/-- One UI automation step, as the dynamically-typed dict the code reads:
absent keys are `none`. -/
structure Step where
  action : Option Str := none
  tp : Option Str := none
  x : Option ℤ := none
  y : Option ℤ := none
  x1 : Option ℤ := none
  y1 : Option ℤ := none
  x2 : Option ℤ := none
  y2 : Option ℤ := none
  duration_ms : Option ℤ := none
  seconds : Option ℚ := none
  duration : Option ℚ := none
  delay : Option ℚ := none
  command : Option (Str ⊕ List Str) := none
  deriving DecidableEq

/-- `step.get("action") or step.get("type")`: the `type` key is consulted
when `action` is absent or falsy (empty). -/
def Step.actionTag (st : Step) : Option Str :=
  match st.action with
  | some s => if s = [] then st.tp else some s
  | none => st.tp

/-- Observable device effects of one executed sequence, in order.
`pause` is the `time.sleep` call after tap/swipe/shell (or the body of a
sleep action). -/
inductive Event where
  | tap (x y : ℤ)
  | swipe (x1 y1 x2 y2 durationMs : ℤ)
  | shell (args : List Str)
  | pause (seconds : ℚ)
  deriving DecidableEq, Repr

/-- `command.split()` when the `shell` command is a string, else
`list(command or [])`. -/
def shellArgs : Option (Str ⊕ List Str) → List Str
  | none => []
  | some (Sum.inl s) => pySplitWs s
  | some (Sum.inr l) => l

/-- Effects of one step of `execute_steps`; `Except.error` models the
uncaught `KeyError` raised by `step["x"]` (and friends) when a recognized
action lacks a required key.  A missing/falsy action tag and an unknown
action are skipped (producing no events) after a logged warning. -/
def stepEvents (default_delay : ℚ) (st : Step) : Except String (List Event) :=
  match st.actionTag with
  | none => .ok []
  | some tag =>
    let action := strLower tag
    if action = "tap".toList then
      match st.x, st.y with
      | some x, some y => .ok [.tap x y, .pause (st.delay.getD default_delay)]
      | _, _ => .error "KeyError"
    else if action = "swipe".toList then
      match st.x1, st.y1, st.x2, st.y2 with
      | some x1, some y1, some x2, some y2 =>
        .ok [.swipe x1 y1 x2 y2 (st.duration_ms.getD 300),
             .pause (st.delay.getD default_delay)]
      | _, _, _, _ => .error "KeyError"
    else if action = "sleep".toList then
      .ok [.pause (st.seconds.getD (st.duration.getD 0))]
    else if action = "shell".toList then
      .ok [.shell (shellArgs st.command), .pause (st.delay.getD default_delay)]
    else .ok []

/-- `ADBClient.execute_steps`: run the steps in order (the source's
`default_delay` parameter defaults to 4.0 seconds); an exception in one
step aborts the remainder. -/
def execute_steps (steps : List Step) (default_delay : ℚ) :
    Except String (List Event) :=
  match steps with
  | [] => .ok []
  | st :: rest => do
    let evs ← stepEvents default_delay st
    let evs' ← execute_steps rest default_delay
    .ok (evs ++ evs')

/-- Modelled from the spec (§4.1): the per-step trace the claim predicts —
well-formed tap/swipe/shell steps emit their action followed by a pause of
`step.delay ?? defaultDelay`, sleep steps emit only their own pause, and
malformed steps are skipped. -/
def stepTraceSpec (default_delay : ℚ) (st : Step) : List Event :=
  match st.actionTag with
  | none => []
  | some tag =>
    let action := strLower tag
    if action = "tap".toList then
      match st.x, st.y with
      | some x, some y => [.tap x y, .pause (st.delay.getD default_delay)]
      | _, _ => []
    else if action = "swipe".toList then
      match st.x1, st.y1, st.x2, st.y2 with
      | some x1, some y1, some x2, some y2 =>
        [.swipe x1 y1 x2 y2 (st.duration_ms.getD 300),
         .pause (st.delay.getD default_delay)]
      | _, _, _, _ => []
    else if action = "sleep".toList then
      [.pause (st.seconds.getD (st.duration.getD 0))]
    else if action = "shell".toList then
      [.shell (shellArgs st.command), .pause (st.delay.getD default_delay)]
    else []

/-- A step `execute_steps` can process without raising: either its action
tag is missing/unknown (it is skipped) or the fields its action needs are
present. -/
def stepSafe (st : Step) : Bool :=
  match st.actionTag with
  | none => true
  | some tag =>
    let action := strLower tag
    if action = "tap".toList then st.x.isSome && st.y.isSome
    else if action = "swipe".toList then
      st.x1.isSome && st.y1.isSome && st.x2.isSome && st.y2.isSome
    else true

/-! ### Association-list model of the SQLite tables (`database.py`) -/

/-- First value stored under a key (SQL `SELECT ... WHERE key = ?`). -/
def alookup {κ α : Type} [DecidableEq κ] : List (κ × α) → κ → Option α
  | [], _ => none
  | (k, v) :: rest, q => if q = k then some v else alookup rest q

/-- SQL upsert (`INSERT ... ON CONFLICT(key) DO UPDATE SET value`):
overwrite the value under an existing key, else append a fresh row. -/
def aset {κ α : Type} [DecidableEq κ] : List (κ × α) → κ → α → List (κ × α)
  | [], k, v => [(k, v)]
  | (k0, v0) :: rest, k, v =>
    if k = k0 then (k0, v) :: rest else (k0, v0) :: aset rest k v

/-- Additive upsert (`... DO UPDATE SET qty = qty + excluded.qty`). -/
def aadd {κ : Type} [DecidableEq κ] (m : List (κ × ℚ)) (k : κ) (q : ℚ) :
    List (κ × ℚ) :=
  match alookup m k with
  | some old => aset m k (old + q)
  | none => m ++ [(k, q)]

/-- Number of rows under a key. -/
def countKey {κ α : Type} [DecidableEq κ] (m : List (κ × α)) (k : κ) : ℕ :=
  (m.filter (fun p => p.1 = k)).length

/-- Key uniqueness (a SQL `PRIMARY KEY`/`UNIQUE` constraint). -/
abbrev keysUnique {κ α : Type} [DecidableEq κ] (m : List (κ × α)) : Prop :=
  (m.map Prod.fst).Nodup

/-- One row of the `contracts` table (`created_at` omitted: the timestamp
is an external default). -/
structure ContractRow where
  system : Str
  player_name : Str
  user_id : Option ℕ
  buyback_percent : ℚ
  est_total : ℚ
  bisk_credited : ℚ
  deriving DecidableEq, Repr

/-- The ledger state touched by the claims: `contracts` (keyed by the
autoincrement id), `contract_items` (key `(contract_id, item_name)`,
value `(qty, est_value)`), `inventory` (key `(system, item_name)`),
`characters` (key `game_nick`, value the nullable `user_id`), and
`ocr_training_words` (key `word`, value the `trained` flag). -/
structure DB where
  next_contract_id : ℕ
  contracts : List (ℕ × ContractRow)
  contract_items : List ((ℕ × Str) × (ℚ × ℚ))
  inventory : List ((Str × Str) × ℚ)
  characters : List (Str × Option ℕ)
  training_words : List (Str × Bool)
  deriving DecidableEq

/-- The empty database after `ensure_schema`. -/
def DB.empty : DB :=
  ⟨0, [], [], [], [], []⟩

/-- `Database.record_contract`: compute the totals, insert the contract
row, upsert each item under the new contract id, and additively upsert
each item into the inventory aggregate; return
`(contract_id, est_total, bisk_credited)`. -/
def record_contract (db : DB) (system player_name : Str)
    (buyback_percent : ℚ) (items : List ContractItem) (user_id : Option ℕ) :
    DB × ℕ × ℚ × ℚ :=
  let est_total := (items.map ContractItem.est_value).sum
  let bisk_credited := est_total * (buyback_percent / 100)
  let contract_id := db.next_contract_id
  let row : ContractRow :=
    ⟨system, player_name, user_id, buyback_percent, est_total, bisk_credited⟩
  let step := fun (s : List ((ℕ × Str) × (ℚ × ℚ)) × List ((Str × Str) × ℚ))
      (item : ContractItem) =>
    (aset s.1 (contract_id, item.item_name) (item.quantity, item.est_value),
     aadd s.2 (system, item.item_name) item.quantity)
  let maps := items.foldl step (db.contract_items, db.inventory)
  ({ db with
      next_contract_id := contract_id + 1,
      contracts := db.contracts ++ [(contract_id, row)],
      contract_items := maps.1,
      inventory := maps.2 },
   contract_id, est_total, bisk_credited)

/-- `Database.link_character`: update the existing character row for the
nickname, else insert one; then back-fill `user_id` on every contract with
that `player_name` and a NULL `user_id`. -/
def link_character (db : DB) (user_id : ℕ) (game_nick : Str) : DB :=
  let characters :=
    match alookup db.characters game_nick with
    | some _ => aset db.characters game_nick (some user_id)
    | none => db.characters ++ [(game_nick, some user_id)]
  { db with
      characters := characters,
      contracts := db.contracts.map (fun p =>
        if p.2.player_name = game_nick ∧ p.2.user_id = none
        then (p.1, { p.2 with user_id := some user_id })
        else p) }

/-- `Database.queue_training_words`: for each word, strip it, skip it when
empty, and upsert it with `trained = 0` (resetting the flag on conflict). -/
def queue_training_words (db : DB) (words : List Str) : DB :=
  if words = [] then db
  else
    { db with
        training_words := words.foldl (fun m w =>
          let normalized := pyStrip w
          if normalized = [] then m
          else aset m normalized false) db.training_words }

/-- `Database.consume_training_words`: select the words with
`trained = 0`, mark every row holding one of them trained, and return
them. -/
def consume_training_words (db : DB) : DB × List Str :=
  let words := (db.training_words.filter (fun p => !p.2)).map Prod.fst
  ({ db with
      training_words := db.training_words.map (fun p =>
        if p.1 ∈ words then (p.1, true) else p) },
   words)

/-- The embedded mutating ledger operations, for stating invariants that
quantify over every operation of this core. -/
inductive LedgerOp where
  | record (system player_name : Str) (buyback_percent : ℚ)
      (items : List ContractItem) (user_id : Option ℕ)
  | link (user_id : ℕ) (game_nick : Str)
  | queue (words : List Str)
  | consume

/-- Apply one ledger operation to a database state. -/
def applyOp (db : DB) : LedgerOp → DB
  | .record system player pct items uid =>
    (record_contract db system player pct items uid).1
  | .link uid nick => link_character db uid nick
  | .queue ws => queue_training_words db ws
  | .consume => (consume_training_words db).1

/-- Item quantities carried by an operation are nonnegative (contracts
never carry negative quantities). -/
def opNonneg : LedgerOp → Prop
  | .record _ _ _ items _ => ∀ it ∈ items, 0 ≤ it.quantity
  | _ => True

/-- Total quantity of an item name across a contract's item list. -/
def qtySum (items : List ContractItem) (name : Str) : ℚ :=
  ((items.filter (fun it => it.item_name = name)).map ContractItem.quantity).sum

/-! ### Association-list lemmas -/

section AList

variable {κ α : Type} [DecidableEq κ]

lemma alookup_aset_self (m : List (κ × α)) (k : κ) (v : α) :
    alookup (aset m k v) k = some v := by
  induction m with
  | nil => simp [aset, alookup]
  | cons p rest ih =>
    obtain ⟨k0, v0⟩ := p
    by_cases h : k = k0
    · rw [aset, if_pos h, alookup, if_pos h]
    · rw [aset, if_neg h, alookup, if_neg h]
      exact ih

lemma alookup_aset_ne (m : List (κ × α)) {k q : κ} (v : α) (h : q ≠ k) :
    alookup (aset m k v) q = alookup m q := by
  induction m with
  | nil => simp [aset, alookup, h]
  | cons p rest ih =>
    obtain ⟨k0, v0⟩ := p
    by_cases h0 : k = k0
    · subst h0
      rw [aset, if_pos rfl, alookup, alookup, if_neg h, if_neg h]
    · rw [aset, if_neg h0, alookup, alookup]
      by_cases hq : q = k0
      · rw [if_pos hq, if_pos hq]
      · rw [if_neg hq, if_neg hq]
        exact ih

lemma alookup_append_of_none {m : List (κ × α)} {k : κ} (l : List (κ × α))
    (h : alookup m k = none) : alookup (m ++ l) k = alookup l k := by
  induction m with
  | nil => simp
  | cons p rest ih =>
    obtain ⟨k0, v0⟩ := p
    rw [alookup] at h
    by_cases hq : k = k0
    · rw [if_pos hq] at h; exact absurd h (by simp)
    · rw [if_neg hq] at h
      rw [List.cons_append, alookup, if_neg hq]
      exact ih h

lemma alookup_append_of_some {m : List (κ × α)} {k : κ} {v : α}
    (l : List (κ × α)) (h : alookup m k = some v) :
    alookup (m ++ l) k = some v := by
  induction m with
  | nil => simp [alookup] at h
  | cons p rest ih =>
    obtain ⟨k0, v0⟩ := p
    rw [alookup] at h
    by_cases hq : k = k0
    · rw [if_pos hq] at h
      rw [List.cons_append, alookup, if_pos hq]
      exact h
    · rw [if_neg hq] at h
      rw [List.cons_append, alookup, if_neg hq]
      exact ih h

lemma alookup_eq_none_iff {m : List (κ × α)} {k : κ} :
    alookup m k = none ↔ k ∉ m.map Prod.fst := by
  induction m with
  | nil => simp [alookup]
  | cons p rest ih =>
    obtain ⟨k0, v0⟩ := p
    rw [alookup]
    by_cases h : k = k0
    · simp [h]
    · simp [h, ih]

lemma aadd_lookup_self (m : List (κ × ℚ)) (k : κ) (q : ℚ) :
    alookup (aadd m k q) k = some ((alookup m k).getD 0 + q) := by
  rw [aadd]
  cases h : alookup m k with
  | some old => rw [alookup_aset_self]; simp
  | none =>
    rw [alookup_append_of_none _ h]
    simp [alookup]

lemma aadd_lookup_ne (m : List (κ × ℚ)) {k q' : κ} (q : ℚ) (h : q' ≠ k) :
    alookup (aadd m k q) q' = alookup m q' := by
  rw [aadd]
  cases hl : alookup m k with
  | some old => exact alookup_aset_ne m _ h
  | none =>
    cases hq : alookup m q' with
    | some v => exact alookup_append_of_some _ hq
    | none =>
      rw [alookup_append_of_none _ hq]
      simp [alookup, h]

lemma keys_aset_of_some {m : List (κ × α)} {k : κ} (v : α)
    (h : alookup m k = some v') :
    (aset m k v).map Prod.fst = m.map Prod.fst := by
  induction m with
  | nil => simp [alookup] at h
  | cons p rest ih =>
    obtain ⟨k0, v0⟩ := p
    rw [alookup] at h
    by_cases hq : k = k0
    · rw [aset, if_pos hq]; simp
    · rw [if_neg hq] at h
      rw [aset, if_neg hq]
      simp [ih h]

lemma keys_aset_of_none {m : List (κ × α)} {k : κ} (v : α)
    (h : alookup m k = none) :
    (aset m k v).map Prod.fst = m.map Prod.fst ++ [k] := by
  induction m with
  | nil => simp [aset]
  | cons p rest ih =>
    obtain ⟨k0, v0⟩ := p
    rw [alookup] at h
    by_cases hq : k = k0
    · rw [if_pos hq] at h; exact absurd h (by simp)
    · rw [if_neg hq] at h
      rw [aset, if_neg hq]
      simp [ih h]

lemma keysUnique_aset {m : List (κ × α)} (k : κ) (v : α)
    (h : keysUnique m) : keysUnique (aset m k v) := by
  cases hl : alookup m k with
  | some w => rw [keysUnique, keys_aset_of_some v hl]; exact h
  | none =>
    rw [keysUnique, keys_aset_of_none v hl]
    have hk : k ∉ m.map Prod.fst := alookup_eq_none_iff.mp hl
    rw [List.nodup_append]
    refine ⟨h, List.nodup_singleton k, fun a ha hb => ?_⟩
    rw [List.mem_singleton] at hb
    subst hb
    exact hk ha

lemma keysUnique_aadd {m : List (κ × ℚ)} (k : κ) (q : ℚ)
    (h : keysUnique m) : keysUnique (aadd m k q) := by
  rw [aadd]
  cases hl : alookup m k with
  | some old => exact keysUnique_aset _ _ h
  | none =>
    have hk : k ∉ m.map Prod.fst := alookup_eq_none_iff.mp hl
    rw [keysUnique, List.map_append, List.nodup_append]
    refine ⟨h, by simp, fun a ha hb => ?_⟩
    simp only [List.map_cons, List.map_nil, List.mem_singleton] at hb
    subst hb
    exact hk ha

lemma countKey_cons_self (m : List (κ × α)) (k : κ) (v : α) :
    countKey ((k, v) :: m) k = countKey m k + 1 := by
  simp [countKey, List.filter_cons]

lemma countKey_cons_ne (m : List (κ × α)) {k0 k : κ} (v : α) (h : k0 ≠ k) :
    countKey ((k0, v) :: m) k = countKey m k := by
  simp [countKey, List.filter_cons, h]

lemma countKey_eq_zero {m : List (κ × α)} {k : κ}
    (hl : alookup m k = none) : countKey m k = 0 := by
  induction m with
  | nil => simp [countKey]
  | cons p rest ih =>
    obtain ⟨k0, v0⟩ := p
    rw [alookup] at hl
    by_cases hq : k = k0
    · rw [if_pos hq] at hl; exact absurd hl (by simp)
    · rw [if_neg hq] at hl
      rw [countKey_cons_ne rest v0 (fun h => hq h.symm)]
      exact ih hl

lemma alookup_some_mem {m : List (κ × α)} {k : κ} {v : α}
    (h : alookup m k = some v) : (k, v) ∈ m := by
  induction m with
  | nil => simp [alookup] at h
  | cons p rest ih =>
    obtain ⟨k0, v0⟩ := p
    rw [alookup] at h
    by_cases hq : k = k0
    · rw [if_pos hq] at h
      injection h with h
      subst hq; subst h
      exact List.mem_cons_self _ _
    · rw [if_neg hq] at h
      exact List.mem_cons_of_mem _ (ih h)

lemma aset_length_of_some {m : List (κ × α)} {k : κ} {b : α} (v : α)
    (h : alookup m k = some b) : (aset m k v).length = m.length := by
  induction m with
  | nil => simp [alookup] at h
  | cons p rest ih =>
    obtain ⟨k0, v0⟩ := p
    rw [alookup] at h
    by_cases hq : k = k0
    · rw [aset, if_pos hq]; rfl
    · rw [if_neg hq] at h
      rw [aset, if_neg hq, List.length_cons, List.length_cons, ih h]

lemma alookup_append_singleton_ne (m : List (κ × α)) {k q : κ} (v : α)
    (h : q ≠ k) : alookup (m ++ [(k, v)]) q = alookup m q := by
  cases hq : alookup m q with
  | some w => exact alookup_append_of_some _ hq
  | none =>
    rw [alookup_append_of_none _ hq]
    simp [alookup, h]

lemma keysUnique_append_of_none {m : List (κ × α)} {k : κ} (v : α)
    (h : keysUnique m) (hl : alookup m k = none) :
    keysUnique (m ++ [(k, v)]) := by
  have hk : k ∉ m.map Prod.fst := alookup_eq_none_iff.mp hl
  rw [keysUnique, List.map_append, List.nodup_append]
  refine ⟨h, by simp, fun a ha hb => ?_⟩
  simp only [List.map_cons, List.map_nil, List.mem_singleton] at hb
  subst hb
  exact hk ha

lemma countKey_eq_one {m : List (κ × α)} {k : κ} {v : α}
    (hu : keysUnique m) (hl : alookup m k = some v) : countKey m k = 1 := by
  induction m with
  | nil => simp [alookup] at hl
  | cons p rest ih =>
    obtain ⟨k0, v0⟩ := p
    rw [alookup] at hl
    rw [keysUnique, List.map_cons, List.nodup_cons] at hu
    by_cases hq : k = k0
    · subst hq
      have hz : countKey rest k = 0 := by
        refine countKey_eq_zero (alookup_eq_none_iff.mpr ?_)
        exact hu.1
      rw [countKey_cons_self, hz]
    · rw [if_neg hq] at hl
      rw [countKey_cons_ne rest v0 (fun h => hq h.symm)]
      exact ih hu.2 hl

lemma countKey_le_one {m : List (κ × α)} (hu : keysUnique m) (k : κ) :
    countKey m k ≤ 1 := by
  cases h : alookup m k with
  | some v => exact le_of_eq (countKey_eq_one hu h)
  | none => rw [countKey_eq_zero h]; omega

end AList

/-! ### Unfolding `record_contract` -/

lemma foldl_prod {α β γ : Type} (f : α → γ → α) (g : β → γ → β)
    (l : List γ) (a : α) (b : β) :
    l.foldl (fun s c => (f s.1 c, g s.2 c)) (a, b) = (l.foldl f a, l.foldl g b) := by
  induction l generalizing a b with
  | nil => rfl
  | cons c rest ih => simp only [List.foldl_cons]; exact ih (f a c) (g b c)

/-- The `contract_items` upsert loop of `record_contract`. -/
def ciFold (cid : ℕ) (m : List ((ℕ × Str) × (ℚ × ℚ)))
    (items : List ContractItem) : List ((ℕ × Str) × (ℚ × ℚ)) :=
  items.foldl (fun m it => aset m (cid, it.item_name) (it.quantity, it.est_value)) m

/-- The `inventory` additive-upsert loop of `record_contract`. -/
def invFold (system : Str) (m : List ((Str × Str) × ℚ))
    (items : List ContractItem) : List ((Str × Str) × ℚ) :=
  items.foldl (fun m it => aadd m (system, it.item_name) it.quantity) m

lemma record_contract_eq (db : DB) (system player_name : Str)
    (buyback_percent : ℚ) (items : List ContractItem) (user_id : Option ℕ) :
    record_contract db system player_name buyback_percent items user_id =
      ({ db with
          next_contract_id := db.next_contract_id + 1,
          contracts := db.contracts ++ [(db.next_contract_id,
            ⟨system, player_name, user_id, buyback_percent,
             (items.map ContractItem.est_value).sum,
             (items.map ContractItem.est_value).sum * (buyback_percent / 100)⟩)],
          contract_items := ciFold db.next_contract_id db.contract_items items,
          inventory := invFold system db.inventory items },
       db.next_contract_id, (items.map ContractItem.est_value).sum,
       (items.map ContractItem.est_value).sum * (buyback_percent / 100)) := by
  have hmaps : items.foldl
      (fun (s : List ((ℕ × Str) × (ℚ × ℚ)) × List ((Str × Str) × ℚ)) item =>
        (aset s.1 (db.next_contract_id, item.item_name) (item.quantity, item.est_value),
         aadd s.2 (system, item.item_name) item.quantity))
      (db.contract_items, db.inventory) =
      (ciFold db.next_contract_id db.contract_items items,
       invFold system db.inventory items) := by
    rw [ciFold, invFold]
    exact foldl_prod
      (fun m it => aset m (db.next_contract_id, it.item_name) (it.quantity, it.est_value))
      (fun m it => aadd m (system, it.item_name) it.quantity)
      items db.contract_items db.inventory
  simp only [record_contract]
  rw [hmaps]

lemma ciFold_lookup (cid : ℕ) (items : List ContractItem)
    (m : List ((ℕ × Str) × (ℚ × ℚ))) (name : Str) :
    alookup (ciFold cid m items) (cid, name) =
      match (items.filter (fun it => it.item_name = name)).getLast? with
      | some it => some (it.quantity, it.est_value)
      | none => alookup m (cid, name) := by
  induction items generalizing m with
  | nil => rfl
  | cons it rest ih =>
    rw [ciFold, List.foldl_cons]
    rw [show rest.foldl (fun m it =>
      aset m (cid, it.item_name) (it.quantity, it.est_value))
      (aset m (cid, it.item_name) (it.quantity, it.est_value)) =
      ciFold cid (aset m (cid, it.item_name) (it.quantity, it.est_value)) rest from rfl]
    rw [ih]
    by_cases h : it.item_name = name
    · rw [List.filter_cons_of_pos (by simpa using h)]
      cases hfr : rest.filter (fun it => decide (it.item_name = name)) with
      | nil =>
        rw [h, alookup_aset_self]
        rfl
      | cons a l =>
        rw [List.getLast?_cons_cons]
        rfl
    · rw [List.filter_cons_of_neg (by simpa using h)]
      cases hfr : rest.filter (fun it => decide (it.item_name = name)) with
      | nil =>
        have hne : ((cid, name) : ℕ × Str) ≠ (cid, it.item_name) := by
          intro hc
          injection hc with h1 h2
          exact h h2.symm
        rw [alookup_aset_ne m _ hne]
      | cons a l => rfl

lemma invFold_lookup (system : Str) (items : List ContractItem)
    (m : List ((Str × Str) × ℚ)) (k : Str × Str) :
    alookup (invFold system m items) k =
      if items.filter (fun it => (system, it.item_name) = k) = [] then
        alookup m k
      else
        some ((alookup m k).getD 0 +
          (((items.filter (fun it => (system, it.item_name) = k)).map
            ContractItem.quantity).sum)) := by
  induction items generalizing m with
  | nil => simp [invFold]
  | cons it rest ih =>
    rw [invFold, List.foldl_cons]
    rw [show rest.foldl (fun m it => aadd m (system, it.item_name) it.quantity)
      (aadd m (system, it.item_name) it.quantity) =
      invFold system (aadd m (system, it.item_name) it.quantity) rest from rfl]
    rw [ih]
    by_cases h : (system, it.item_name) = k
    · rw [List.filter_cons_of_pos (by simpa using h)]
      have hbase : alookup (aadd m (system, it.item_name) it.quantity) k =
          some ((alookup m k).getD 0 + it.quantity) := by
        rw [h, aadd_lookup_self]
      by_cases hr : rest.filter (fun it => decide ((system, it.item_name) = k)) = []
      · rw [if_pos hr, if_neg (by simp), hr, hbase]
        simp
      · rw [if_neg hr, if_neg (by simp [hr]), hbase]
        simp [add_assoc]
    · rw [List.filter_cons_of_neg (by simpa using h)]
      have hbase : alookup (aadd m (system, it.item_name) it.quantity) k =
          alookup m k :=
        aadd_lookup_ne m it.quantity (fun hk => h hk.symm)
      rw [hbase]

lemma keysUnique_ciFold (cid : ℕ) (items : List ContractItem)
    {m : List ((ℕ × Str) × (ℚ × ℚ))} (h : keysUnique m) :
    keysUnique (ciFold cid m items) := by
  induction items generalizing m with
  | nil => exact h
  | cons it rest ih =>
    rw [ciFold, List.foldl_cons]
    exact ih (keysUnique_aset _ _ h)

lemma keysUnique_invFold (system : Str) (items : List ContractItem)
    {m : List ((Str × Str) × ℚ)} (h : keysUnique m) :
    keysUnique (invFold system m items) := by
  induction items generalizing m with
  | nil => exact h
  | cons it rest ih =>
    rw [invFold, List.foldl_cons]
    exact ih (keysUnique_aadd _ _ h)

lemma filter_pair_eq (system name : Str) (items : List ContractItem) :
    items.filter (fun it => (system, it.item_name) = ((system, name) : Str × Str)) =
      items.filter (fun it => it.item_name = name) := by
  refine List.filter_congr ?_
  intro it _
  simp [Prod.ext_iff]

lemma invFold_mono (system : Str) (items : List ContractItem)
    (m : List ((Str × Str) × ℚ)) (k : Str × Str) (q0 : ℚ)
    (hq : ∀ it ∈ items, 0 ≤ it.quantity) (h : alookup m k = some q0) :
    ∃ q', alookup (invFold system m items) k = some q' ∧ q0 ≤ q' := by
  rw [invFold_lookup]
  by_cases hr : items.filter (fun it => (system, it.item_name) = k) = []
  · rw [if_pos hr]
    exact ⟨q0, h, le_refl q0⟩
  · rw [if_neg hr]
    refine ⟨_, rfl, ?_⟩
    rw [h]
    simp only [Option.getD_some]
    have hsum : 0 ≤ (((items.filter (fun it => (system, it.item_name) = k)).map
        ContractItem.quantity).sum) := by
      refine List.sum_nonneg ?_
      intro x hx
      obtain ⟨it, hit, rfl⟩ := List.mem_map.mp hx
      exact hq it (List.mem_of_mem_filter hit)
    linarith

lemma alookup_map_keyed {κ α β : Type} [DecidableEq κ]
    (m : List (κ × α)) (f : κ → α → β) (k : κ) :
    alookup (m.map (fun p => (p.1, f p.1 p.2))) k = (alookup m k).map (f k) := by
  induction m with
  | nil => rfl
  | cons p rest ih =>
    obtain ⟨k0, v0⟩ := p
    by_cases hq : k = k0
    · subst hq; simp [alookup]
    · simp [alookup, hq, ih]

lemma filter_mapped_nil (l : List (Str × Bool)) (W : List Str)
    (h : ∀ p ∈ l, p.2 = false → p.1 ∈ W) :
    (l.map (fun p => if p.1 ∈ W then (p.1, true) else p)).filter
      (fun p => !p.2) = [] := by
  induction l with
  | nil => rfl
  | cons p rest ih =>
    obtain ⟨k, v⟩ := p
    rw [List.map_cons]
    have hdrop : ((fun (p : Str × Bool) => !p.2)
        (if k ∈ W then (k, true) else (k, v))) = false := by
      by_cases hkW : k ∈ W
      · simp [hkW]
      · have : v = true := by
          cases hv : v
          · exact absurd (h (k, v) (List.mem_cons_self _ _) (by simpa using hv)) hkW
          · rfl
        simp [hkW, this]
    rw [List.filter_cons_of_neg (by simpa using hdrop)]
    exact ih (fun p hp => h p (List.mem_cons_of_mem _ hp))

lemma alookup_mapped_true (l : List (Str × Bool)) (W : List Str) (w : Str)
    (hw : w ∈ W) (b : Bool) (hl : alookup l w = some b) :
    alookup (l.map (fun p => if p.1 ∈ W then (p.1, true) else p)) w =
      some true := by
  induction l with
  | nil => simp [alookup] at hl
  | cons p rest ih =>
    obtain ⟨k, v⟩ := p
    rw [List.map_cons]
    by_cases hq : w = k
    · subst hq
      by_cases hkW : w ∈ W
      · rw [if_pos hkW, alookup, if_pos rfl]
      · exact absurd hw hkW
    · have hskip : alookup ((if k ∈ W then (k, true) else (k, v)) ::
          rest.map (fun p => if p.1 ∈ W then (p.1, true) else p)) w =
          alookup (rest.map (fun p => if p.1 ∈ W then (p.1, true) else p)) w := by
        by_cases hkW : k ∈ W
        · rw [if_pos hkW, alookup, if_neg hq]
        · rw [if_neg hkW, alookup, if_neg hq]
      rw [hskip]
      rw [alookup, if_neg hq] at hl
      exact ih hl

/-- Unfolded form of `consume_training_words`. -/
lemma consume_eq (db : DB) :
    consume_training_words db =
      ({ db with training_words := db.training_words.map (fun p =>
          if p.1 ∈ (db.training_words.filter (fun p => !p.2)).map Prod.fst
          then (p.1, true) else p) },
       (db.training_words.filter (fun p => !p.2)).map Prod.fst) := rfl

/-- A safe step's effects are its predicted trace. -/
lemma stepEvents_safe (default_delay : ℚ) (st : Step)
    (h : stepSafe st = true) :
    stepEvents default_delay st = .ok (stepTraceSpec default_delay st) := by
  cases hA : st.actionTag with
  | none => simp [stepEvents, stepTraceSpec, hA]
  | some tag =>
    simp only [stepEvents, stepTraceSpec, stepSafe, hA] at h ⊢
    by_cases ht : strLower tag = "tap".toList
    · rw [if_pos ht] at h
      rw [if_pos ht, if_pos ht]
      cases hx : st.x with
      | none => rw [hx] at h; simp at h
      | some x =>
        cases hy : st.y with
        | none => rw [hx, hy] at h; simp at h
        | some y => rfl
    · rw [if_neg ht] at h
      rw [if_neg ht, if_neg ht]
      by_cases hs : strLower tag = "swipe".toList
      · rw [if_pos hs] at h
        rw [if_pos hs, if_pos hs]
        cases hx1 : st.x1 with
        | none => rw [hx1] at h; simp at h
        | some x1 =>
          cases hy1 : st.y1 with
          | none => rw [hy1] at h; simp at h
          | some y1 =>
            cases hx2 : st.x2 with
            | none => rw [hx2] at h; simp at h
            | some x2 =>
              cases hy2 : st.y2 with
              | none => rw [hy2] at h; simp at h
              | some y2 => rfl
      · rw [if_neg hs, if_neg hs]
        by_cases hsl : strLower tag = "sleep".toList
        · rw [if_pos hsl, if_pos hsl]
        · rw [if_neg hsl, if_neg hsl]
          by_cases hsh : strLower tag = "shell".toList
          · rw [if_pos hsh, if_pos hsh]
          · rw [if_neg hsh, if_neg hsh]

lemma pyFind_eq_none {l : Str} {c : Char} (h : c ∉ l) : pyFind l c = none := by
  induction l with
  | nil => rfl
  | cons d rest ih =>
    have hd : d ≠ c := fun hdc => h (by rw [hdc]; exact List.mem_cons_self _ _)
    rw [pyFind, if_neg hd, ih (fun hmem => h (List.mem_cons_of_mem _ hmem))]
    rfl

lemma pyFind_spec {l : Str} {c : Char} {i : ℕ} (hi : i < l.length)
    (hget : l.getD i ' ' = c) (hpre : c ∉ l.take i) : pyFind l c = some i := by
  induction l generalizing i with
  | nil => simp at hi
  | cons d rest ih =>
    by_cases hd : d = c
    · cases i with
      | zero => rw [pyFind, if_pos hd]
      | succ j =>
        exfalso
        apply hpre
        rw [List.take_succ_cons]
        exact List.mem_cons.mpr (Or.inl hd.symm)
    · cases i with
      | zero =>
        simp only [List.getD_cons_zero] at hget
        exact absurd hget hd
      | succ j =>
        rw [pyFind, if_neg hd]
        have hj : rest.getD j ' ' = c := by simpa using hget
        have hjl : j < rest.length := by simpa using hi
        have hjp : c ∉ rest.take j := fun hmem =>
          hpre (by rw [List.take_succ_cons]; exact List.mem_cons_of_mem _ hmem)
        rw [ih hjl hj hjp]
        rfl

/-- Produced items satisfy the per-line acceptance conditions. -/
lemma parseLine_sound {raw : Str} {it : ContractItem}
    (h : parseLine raw = some it) :
    4 ≤ (partsOf (pyStrip raw)).length ∧
    pyFloat (commaToDot ((partsOf (pyStrip raw)).getD
      ((partsOf (pyStrip raw)).length - 2) [])) = some it.quantity ∧
    pyFloat (commaToDot ((partsOf (pyStrip raw)).getD
      ((partsOf (pyStrip raw)).length - 1) [])) = some it.est_value ∧
    it.item_name = sanitize_item_name (List.intercalate [' ']
      (((partsOf (pyStrip raw)).drop 1).take
        ((partsOf (pyStrip raw)).length - 3))) ∧
    it.item_name ≠ [] := by
  simp only [parseLine] at h
  split at h
  · exact absurd h (by simp)
  · split at h
    · exact absurd h (by simp)
    · rename_i hempty hlen
      split at h
      · rename_i quantity est_value hq he
        split at h
        · exact absurd h (by simp)
        · rename_i hname
          injection h with h
          subst h
          exact ⟨by omega, hq, he, rfl, hname⟩
      · exact absurd h (by simp)

/-! ## Claim theorems -/

/-- C10: `record_contract` called with an empty item sequence still
succeeds: it inserts exactly one contract row with `est_total = 0` and
`bisk_credited = 0`, adds no item rows, leaves the inventory untouched, and
returns `(contract_id, 0, 0)`.  The ledger interface itself enforces no
non-empty-items precondition (that guard lives in the cycle controller,
which skips `record_contract` entirely when parsing yields no items). -/
theorem record_contract_empty_items (db : DB) (system player_name : Str)
    (buyback_percent : ℚ) (user_id : Option ℕ) :
    record_contract db system player_name buyback_percent [] user_id =
      ({ db with
          next_contract_id := db.next_contract_id + 1,
          contracts := db.contracts ++ [(db.next_contract_id,
            ⟨system, player_name, user_id, buyback_percent, 0, 0⟩)] },
       db.next_contract_id, 0, 0) := by
  rw [record_contract_eq]
  simp [ciFold, invFold]

/-- C1: for every prior ledger state (with the `contract_items` primary
key intact, as SQLite's `UNIQUE(contract_id, item_name)` guarantees),
`record_contract` returns `estimatedTotal` equal to the sum of the items'
estimated values and `creditedAmount = estimatedTotal × buybackPercent/100`;
re-inserting an item under an existing `(contractId, itemName)` key updates
that row's quantity and value (the last occurrence wins) and never creates
a duplicate row for the key. -/
theorem record_contract_correct (db : DB) (system player_name : Str)
    (buyback_percent : ℚ) (items : List ContractItem) (user_id : Option ℕ)
    (hu : keysUnique db.contract_items) :
    (record_contract db system player_name buyback_percent items user_id).2.2.1 =
      (items.map ContractItem.est_value).sum ∧
    (record_contract db system player_name buyback_percent items user_id).2.2.2 =
      (record_contract db system player_name buyback_percent items user_id).2.2.1 *
        (buyback_percent / 100) ∧
    (∀ name it',
      (items.filter (fun it => it.item_name = name)).getLast? = some it' →
      alookup
        (record_contract db system player_name buyback_percent items user_id).1.contract_items
        ((record_contract db system player_name buyback_percent items user_id).2.1, name) =
        some (it'.quantity, it'.est_value)) ∧
    (∀ name,
      countKey
        (record_contract db system player_name buyback_percent items user_id).1.contract_items
        ((record_contract db system player_name buyback_percent items user_id).2.1, name) ≤ 1) := by
  rw [record_contract_eq]
  refine ⟨rfl, rfl, ?_, ?_⟩
  · intro name it' h
    simp only
    rw [ciFold_lookup, h]
  · intro name
    simp only
    exact countKey_le_one (keysUnique_ciFold _ _ hu) _

/-- Witness for C1 at a concrete state: the empty ledger, a 50% buyback and
an item list that mentions `Trit` twice — the totals are as claimed and the
duplicate key holds the last quantity/value, in a single row. -/
theorem record_contract_correct_witness :
    keysUnique (DB.empty).contract_items ∧
    (record_contract DB.empty "Jita".toList "Vex".toList 50
        [⟨"Trit".toList, 3, 10⟩, ⟨"Trit".toList, 5, 20⟩] none).2.2.1 = 30 ∧
    (record_contract DB.empty "Jita".toList "Vex".toList 50
        [⟨"Trit".toList, 3, 10⟩, ⟨"Trit".toList, 5, 20⟩] none).2.2.2 = 15 ∧
    alookup
      (record_contract DB.empty "Jita".toList "Vex".toList 50
        [⟨"Trit".toList, 3, 10⟩, ⟨"Trit".toList, 5, 20⟩] none).1.contract_items
      ((record_contract DB.empty "Jita".toList "Vex".toList 50
        [⟨"Trit".toList, 3, 10⟩, ⟨"Trit".toList, 5, 20⟩] none).2.1, "Trit".toList) =
      some (5, 20) ∧
    countKey
      (record_contract DB.empty "Jita".toList "Vex".toList 50
        [⟨"Trit".toList, 3, 10⟩, ⟨"Trit".toList, 5, 20⟩] none).1.contract_items
      ((record_contract DB.empty "Jita".toList "Vex".toList 50
        [⟨"Trit".toList, 3, 10⟩, ⟨"Trit".toList, 5, 20⟩] none).2.1, "Trit".toList) ≤ 1 := by
  have h := record_contract_correct DB.empty "Jita".toList "Vex".toList 50
    [⟨"Trit".toList, 3, 10⟩, ⟨"Trit".toList, 5, 20⟩] none (by decide)
  refine ⟨by decide, ?_, ?_, ?_, ?_⟩
  · rw [h.1]; norm_num
  · rw [h.2.1, h.1]; norm_num
  · exact h.2.2.1 "Trit".toList ⟨"Trit".toList, 5, 20⟩ (by rfl)
  · exact h.2.2.2 "Trit".toList

/-- C7: the inventory aggregate is keyed uniquely by `(system, itemName)`
and is only ever added to.  After two contracts for a system carrying an
item, the aggregate equals the sum of the carried quantities and occupies
exactly one row; and no embedded ledger operation (with the item
quantities nonnegative, as contract compositions carry) ever decreases —
or deletes — an existing aggregate entry. -/
theorem inventory_aggregate_correct :
    (∀ (db : DB) (system name p1 p2 : Str) (pct1 pct2 : ℚ)
       (items1 items2 : List ContractItem) (u1 u2 : Option ℕ),
      keysUnique db.inventory →
      alookup db.inventory (system, name) = none →
      items1.filter (fun it => it.item_name = name) ≠ [] →
      alookup ((record_contract
          ((record_contract db system p1 pct1 items1 u1).1)
          system p2 pct2 items2 u2).1).inventory (system, name) =
        some (qtySum items1 name + qtySum items2 name) ∧
      countKey ((record_contract
          ((record_contract db system p1 pct1 items1 u1).1)
          system p2 pct2 items2 u2).1).inventory (system, name) = 1) ∧
    (∀ (db : DB) (op : LedgerOp), opNonneg op →
      ∀ (k : Str × Str) (q0 : ℚ), alookup db.inventory k = some q0 →
      ∃ q', alookup (applyOp db op).inventory k = some q' ∧ q0 ≤ q') := by
  constructor
  · intro db system name p1 p2 pct1 pct2 items1 items2 u1 u2 hu hnone hne
    have hinv : ((record_contract ((record_contract db system p1 pct1 items1 u1).1)
        system p2 pct2 items2 u2).1).inventory =
        invFold system (invFold system db.inventory items1) items2 := by
      rw [record_contract_eq, record_contract_eq]
    have hlook : alookup (invFold system (invFold system db.inventory items1) items2)
        (system, name) = some (qtySum items1 name + qtySum items2 name) := by
      rw [invFold_lookup]
      rw [invFold_lookup]
      simp only [filter_pair_eq]
      rw [hnone, if_neg hne]
      by_cases h2 : items2.filter (fun it => it.item_name = name) = []
      · rw [if_pos h2]
        simp [qtySum, h2]
      · rw [if_neg h2]
        simp [qtySum]
    refine ⟨by rw [hinv]; exact hlook, ?_⟩
    rw [hinv]
    exact countKey_eq_one
      (keysUnique_invFold _ _ (keysUnique_invFold _ _ hu)) hlook
  · intro db op hop k q0 hl
    cases op with
    | record sys p pct items uid =>
      have hinv : (applyOp db (.record sys p pct items uid)).inventory =
          invFold sys db.inventory items := by
        simp only [applyOp]
        rw [record_contract_eq]
      rw [hinv]
      exact invFold_mono sys items db.inventory k q0 hop hl
    | link uid nick => exact ⟨q0, hl, le_refl q0⟩
    | queue ws =>
      have hinv : (applyOp db (.queue ws)).inventory = db.inventory := by
        simp only [applyOp, queue_training_words]
        split <;> rfl
      rw [hinv]
      exact ⟨q0, hl, le_refl q0⟩
    | consume => exact ⟨q0, hl, le_refl q0⟩

/-- Witness for C7 at concrete states: starting from the empty ledger, two
single-item contracts for `(Jita, Trit)` with quantities 3 and 4 leave one
row holding 7; and recording a contract over a state already holding 5 of
`(Jita, Trit)` does not decrease the aggregate. -/
theorem inventory_aggregate_correct_witness :
    (keysUnique (DB.empty).inventory ∧
     alookup (DB.empty).inventory ("Jita".toList, "Trit".toList) = none ∧
     [(⟨"Trit".toList, 3, 1⟩ : ContractItem)].filter
       (fun it => it.item_name = "Trit".toList) ≠ [] ∧
     alookup ((record_contract
        ((record_contract DB.empty "Jita".toList "A".toList 50
          [⟨"Trit".toList, 3, 1⟩] none).1)
        "Jita".toList "B".toList 50 [⟨"Trit".toList, 4, 2⟩] none).1).inventory
        ("Jita".toList, "Trit".toList) =
       some (qtySum [⟨"Trit".toList, 3, 1⟩] "Trit".toList +
             qtySum [⟨"Trit".toList, 4, 2⟩] "Trit".toList) ∧
     countKey ((record_contract
        ((record_contract DB.empty "Jita".toList "A".toList 50
          [⟨"Trit".toList, 3, 1⟩] none).1)
        "Jita".toList "B".toList 50 [⟨"Trit".toList, 4, 2⟩] none).1).inventory
        ("Jita".toList, "Trit".toList) = 1) ∧
    (opNonneg (.record "Jita".toList "C".toList 50 [⟨"Trit".toList, 2, 1⟩] none) ∧
     ∃ q', alookup (applyOp
        { DB.empty with inventory := [(("Jita".toList, "Trit".toList), 5)] }
        (.record "Jita".toList "C".toList 50 [⟨"Trit".toList, 2, 1⟩] none)).inventory
        ("Jita".toList, "Trit".toList) = some q' ∧ (5 : ℚ) ≤ q') := by
  have h2 := inventory_aggregate_correct.2
    { DB.empty with inventory := [(("Jita".toList, "Trit".toList), 5)] }
    (.record "Jita".toList "C".toList 50 [⟨"Trit".toList, 2, 1⟩] none)
    (by intro it hit; fin_cases hit; norm_num)
    ("Jita".toList, "Trit".toList) 5 (by rfl)
  have h1 := (inventory_aggregate_correct.1 DB.empty "Jita".toList "Trit".toList
    "A".toList "B".toList 50 50 [⟨"Trit".toList, 3, 1⟩] [⟨"Trit".toList, 4, 2⟩]
    none none (by decide) (by rfl) (by simp))
  exact ⟨⟨by decide, by rfl, by simp, h1.1, h1.2⟩,
    ⟨by intro it hit; fin_cases hit; norm_num, h2⟩⟩

/-- C8: `link_character` upserts the nickname-to-user link (preserving the
nickname key's uniqueness, so a nickname links to at most one user and
other nicknames are untouched) and retroactively assigns the user id to
every prior contract whose `player_name` matches the nickname and whose
linked user is NULL, leaving every other contract unchanged. -/
theorem link_character_correct (db : DB) (user_id : ℕ) (game_nick : Str) :
    alookup (link_character db user_id game_nick).characters game_nick =
      some (some user_id) ∧
    (∀ nick', nick' ≠ game_nick →
      alookup (link_character db user_id game_nick).characters nick' =
        alookup db.characters nick') ∧
    (keysUnique db.characters →
      keysUnique (link_character db user_id game_nick).characters) ∧
    (∀ cid row, alookup db.contracts cid = some row →
      alookup (link_character db user_id game_nick).contracts cid =
        some (if row.player_name = game_nick ∧ row.user_id = none
              then { row with user_id := some user_id } else row)) := by
  have hchars : (link_character db user_id game_nick).characters =
      match alookup db.characters game_nick with
      | some _ => aset db.characters game_nick (some user_id)
      | none => db.characters ++ [(game_nick, some user_id)] := rfl
  have hcontracts : (link_character db user_id game_nick).contracts =
      db.contracts.map (fun p =>
        if p.2.player_name = game_nick ∧ p.2.user_id = none
        then (p.1, { p.2 with user_id := some user_id })
        else p) := rfl
  refine ⟨?_, ?_, ?_, ?_⟩
  · rw [hchars]
    cases halo : alookup db.characters game_nick with
    | some v => exact alookup_aset_self _ _ _
    | none =>
      rw [alookup_append_of_none _ halo]
      simp [alookup]
  · intro nick' hne
    rw [hchars]
    cases halo : alookup db.characters game_nick with
    | some v => exact alookup_aset_ne _ _ hne
    | none => exact alookup_append_singleton_ne _ _ hne
  · intro hu
    rw [hchars]
    cases halo : alookup db.characters game_nick with
    | some v => exact keysUnique_aset _ _ hu
    | none => exact keysUnique_append_of_none _ hu halo
  · intro cid row hrow
    rw [hcontracts]
    have hfun : (fun (p : ℕ × ContractRow) =>
        if p.2.player_name = game_nick ∧ p.2.user_id = none
        then (p.1, { p.2 with user_id := some user_id })
        else p) =
        (fun p => (p.1,
          if p.2.player_name = game_nick ∧ p.2.user_id = none
          then { p.2 with user_id := some user_id }
          else p.2)) := by
      funext p
      by_cases h : p.2.player_name = game_nick ∧ p.2.user_id = none
      · rw [if_pos h, if_pos h]
      · rw [if_neg h, if_neg h]
    rw [hfun,
      alookup_map_keyed db.contracts
        (fun _ row => if row.player_name = game_nick ∧ row.user_id = none
          then { row with user_id := some user_id } else row) cid,
      hrow]
    rfl

/-- Witness for C8: linking `Vex` to user 7 over a ledger holding two
unlinked `Vex` contracts and one contract already linked to user 3
back-fills the first two, keeps the third, records the link, and leaves
the nickname `Ann` alone. -/
theorem link_character_correct_witness :
    alookup (link_character
      { DB.empty with contracts :=
          [(0, ⟨"Jita".toList, "Vex".toList, none, 50, 100, 50⟩),
           (1, ⟨"Hek".toList, "Vex".toList, none, 50, 60, 30⟩),
           (2, ⟨"Jita".toList, "Bob".toList, some 3, 50, 10, 5⟩)] }
      7 "Vex".toList).characters "Vex".toList = some (some 7) ∧
    alookup (link_character
      { DB.empty with contracts :=
          [(0, ⟨"Jita".toList, "Vex".toList, none, 50, 100, 50⟩),
           (1, ⟨"Hek".toList, "Vex".toList, none, 50, 60, 30⟩),
           (2, ⟨"Jita".toList, "Bob".toList, some 3, 50, 10, 5⟩)] }
      7 "Vex".toList).characters "Ann".toList = none ∧
    keysUnique (link_character
      { DB.empty with contracts :=
          [(0, ⟨"Jita".toList, "Vex".toList, none, 50, 100, 50⟩),
           (1, ⟨"Hek".toList, "Vex".toList, none, 50, 60, 30⟩),
           (2, ⟨"Jita".toList, "Bob".toList, some 3, 50, 10, 5⟩)] }
      7 "Vex".toList).characters ∧
    alookup (link_character
      { DB.empty with contracts :=
          [(0, ⟨"Jita".toList, "Vex".toList, none, 50, 100, 50⟩),
           (1, ⟨"Hek".toList, "Vex".toList, none, 50, 60, 30⟩),
           (2, ⟨"Jita".toList, "Bob".toList, some 3, 50, 10, 5⟩)] }
      7 "Vex".toList).contracts 1 =
      some ⟨"Hek".toList, "Vex".toList, some 7, 50, 60, 30⟩ ∧
    alookup (link_character
      { DB.empty with contracts :=
          [(0, ⟨"Jita".toList, "Vex".toList, none, 50, 100, 50⟩),
           (1, ⟨"Hek".toList, "Vex".toList, none, 50, 60, 30⟩),
           (2, ⟨"Jita".toList, "Bob".toList, some 3, 50, 10, 5⟩)] }
      7 "Vex".toList).contracts 2 =
      some ⟨"Jita".toList, "Bob".toList, some 3, 50, 10, 5⟩ := by
  have h := link_character_correct
    { DB.empty with contracts :=
        [(0, ⟨"Jita".toList, "Vex".toList, none, 50, 100, 50⟩),
         (1, ⟨"Hek".toList, "Vex".toList, none, 50, 60, 30⟩),
         (2, ⟨"Jita".toList, "Bob".toList, some 3, 50, 10, 5⟩)] }
    7 "Vex".toList
  refine ⟨h.1, h.2.1 "Ann".toList (by decide), h.2.2.1 (by decide), ?_, ?_⟩
  · have := h.2.2.2 1 ⟨"Hek".toList, "Vex".toList, none, 50, 60, 30⟩ (by rfl)
    rw [this]
    rfl
  · have := h.2.2.2 2 ⟨"Jita".toList, "Bob".toList, some 3, 50, 10, 5⟩ (by rfl)
    rw [this]
    rfl

/-- C2: `consume_training_words` called twice with no intervening queueing
returns `[]` on the second call, every word returned by the first call is
left marked trained, and `queue_training_words` for a word that is already
a row (given stripped and non-empty, as the queue normalizes words) adds no
second row but resets its `trained` flag to 0, so the next consume
redelivers it. -/
theorem training_words_props :
    (∀ db : DB, (consume_training_words (consume_training_words db).1).2 = []) ∧
    (∀ (db : DB) (w : Str), w ∈ (consume_training_words db).2 →
      alookup (consume_training_words db).1.training_words w = some true) ∧
    (∀ (db : DB) (w : Str) (b : Bool), pyStrip w = w → w ≠ [] →
      alookup db.training_words w = some b →
      (queue_training_words db [w]).training_words.length =
        db.training_words.length ∧
      alookup (queue_training_words db [w]).training_words w = some false ∧
      w ∈ (consume_training_words (queue_training_words db [w])).2) := by
  refine ⟨?_, ?_, ?_⟩
  · intro db
    have h0 := filter_mapped_nil db.training_words
      ((db.training_words.filter (fun p => !p.2)).map Prod.fst)
      (fun p hp hfalse =>
        List.mem_map.mpr ⟨p, List.mem_filter.mpr ⟨hp, by simp [hfalse]⟩, rfl⟩)
    show (((consume_training_words db).1.training_words.filter
      (fun p => !p.2)).map Prod.fst) = []
    rw [consume_eq db]
    simp only
    rw [h0]
    rfl
  · intro db w hw
    have hsub : w ∈ db.training_words.map Prod.fst := by
      obtain ⟨p, hp, rfl⟩ := List.mem_map.mp hw
      exact List.mem_map.mpr ⟨p, List.mem_of_mem_filter hp, rfl⟩
    cases hl : alookup db.training_words w with
    | none => exact absurd hsub (alookup_eq_none_iff.mp hl)
    | some b =>
      show alookup (db.training_words.map (fun p =>
        if p.1 ∈ (db.training_words.filter (fun p => !p.2)).map Prod.fst
        then (p.1, true) else p)) w = some true
      exact alookup_mapped_true _ _ w hw b hl
  · intro db w b hstrip hne hb
    have hq : (queue_training_words db [w]).training_words =
        aset db.training_words w false := by
      simp only [queue_training_words]
      rw [if_neg (by simp)]
      simp only [List.foldl_cons, List.foldl_nil]
      rw [hstrip, if_neg hne]
    refine ⟨?_, ?_, ?_⟩
    · rw [hq]
      exact aset_length_of_some false hb
    · rw [hq]
      exact alookup_aset_self _ _ _
    · show w ∈ ((queue_training_words db [w]).training_words.filter
        (fun p => !p.2)).map Prod.fst
      rw [hq]
      exact List.mem_map.mpr ⟨(w, false),
        List.mem_filter.mpr
          ⟨alookup_some_mem (alookup_aset_self db.training_words w false),
           by simp⟩, rfl⟩

/-- Witness for C2 at concrete states: draining `[("abc", untrained),
("xyz", trained)]` twice yields `[]` the second time with `abc` left
trained; and re-queueing `abc` over `[("abc", trained)]` keeps one row,
resets the flag, and the next consume redelivers `abc`. -/
theorem training_words_props_witness :
    (consume_training_words (consume_training_words
      { DB.empty with training_words :=
          [("abc".toList, false), ("xyz".toList, true)] }).1).2 = [] ∧
    alookup (consume_training_words
      { DB.empty with training_words :=
          [("abc".toList, false), ("xyz".toList, true)] }).1.training_words
      "abc".toList = some true ∧
    ((queue_training_words
        { DB.empty with training_words := [("abc".toList, true)] }
        ["abc".toList]).training_words.length =
      ({ DB.empty with training_words := [("abc".toList, true)] } :
        DB).training_words.length ∧
     alookup (queue_training_words
        { DB.empty with training_words := [("abc".toList, true)] }
        ["abc".toList]).training_words "abc".toList = some false ∧
     "abc".toList ∈ (consume_training_words (queue_training_words
        { DB.empty with training_words := [("abc".toList, true)] }
        ["abc".toList])).2) :=
  ⟨training_words_props.1
      { DB.empty with training_words :=
          [("abc".toList, false), ("xyz".toList, true)] },
   training_words_props.2.1
      { DB.empty with training_words :=
          [("abc".toList, false), ("xyz".toList, true)] }
      "abc".toList (by decide),
   training_words_props.2.2
      { DB.empty with training_words := [("abc".toList, true)] }
      "abc".toList true (by rfl) (by decide) (by rfl)⟩

/-- C3, counterexample: the spec's test case is wrong on the code.  The box
`(50, 50, 10, 10)` on a 200×200 image sorts per-axis to the rectangle
`(10, 10, 50, 50)`, whose area is positive, so `_safe_crop` returns that
crop — not `none` as the claim asserts. -/
theorem safe_crop_claim_counterexample :
    safe_crop 200 200 [50, 50, 10, 10] = some ⟨10, 10, 50, 50⟩ := by decide

/-- C3, amended: `_safe_crop` rejects a box that is not four numbers,
sorts the box per axis, clamps it to the image bounds, and returns `none`
exactly when the resulting rectangle has zero or negative width or height
(never a crash); a returned rectangle is the sorted clamped one, with
positive area, inside the image.  `crop_box` feeds a configured non-empty
region box through `_safe_crop`.  The box `(50, 50, 10, 10)` on a 200×200
image yields the crop `(10, 10, 50, 50)` (positive area after sorting); a
genuinely degenerate box such as `(50, 50, 50, 10)` yields `none`. -/
theorem safe_crop_props :
    (∀ (width height : ℕ) (box : List ℤ), box.length ≠ 4 →
      safe_crop width height box = none) ∧
    (∀ (width height : ℕ) (l t r b : ℤ),
      (safe_crop width height [l, t, r, b] = none ↔
        max 0 (min (width : ℤ) (max l r)) ≤ max 0 (min (width : ℤ) (min l r)) ∨
        max 0 (min (height : ℤ) (max t b)) ≤ max 0 (min (height : ℤ) (min t b)))) ∧
    (∀ (width height : ℕ) (l t r b : ℤ) (rect : CropRect),
      safe_crop width height [l, t, r, b] = some rect →
      rect.left = max 0 (min (width : ℤ) (min l r)) ∧
      rect.top = max 0 (min (height : ℤ) (min t b)) ∧
      rect.right = max 0 (min (width : ℤ) (max l r)) ∧
      rect.bottom = max 0 (min (height : ℤ) (max t b)) ∧
      0 ≤ rect.left ∧ rect.left < rect.right ∧ rect.right ≤ (width : ℤ) ∧
      0 ≤ rect.top ∧ rect.top < rect.bottom ∧ rect.bottom ≤ (height : ℤ)) ∧
    (∀ (width height : ℕ) (box_name : Str) (ocr_boxes : List (Str × List ℤ))
       (box : List ℤ), ocr_boxes.lookup box_name = some box → box ≠ [] →
      crop_box width height box_name ocr_boxes = safe_crop width height box) ∧
    safe_crop 200 200 [50, 50, 10, 10] = some ⟨10, 10, 50, 50⟩ ∧
    safe_crop 200 200 [50, 50, 50, 10] = none := by
  have hnone : ∀ (width height : ℕ) (l t r b : ℤ),
      ¬(max 0 (min (width : ℤ) (max l r)) ≤ max 0 (min (width : ℤ) (min l r)) ∨
        max 0 (min (height : ℤ) (max t b)) ≤ max 0 (min (height : ℤ) (min t b))) →
      safe_crop width height [l, t, r, b] =
        some ⟨max 0 (min (width : ℤ) (min l r)), max 0 (min (height : ℤ) (min t b)),
              max 0 (min (width : ℤ) (max l r)), max 0 (min (height : ℤ) (max t b))⟩ := by
    intro width height l t r b hc
    simp only [safe_crop]
    rw [if_neg (by simpa using hc)]
  have hsome : ∀ (width height : ℕ) (l t r b : ℤ),
      (max 0 (min (width : ℤ) (max l r)) ≤ max 0 (min (width : ℤ) (min l r)) ∨
        max 0 (min (height : ℤ) (max t b)) ≤ max 0 (min (height : ℤ) (min t b))) →
      safe_crop width height [l, t, r, b] = none := by
    intro width height l t r b hc
    simp only [safe_crop]
    rw [if_pos (by simpa using hc)]
  refine ⟨?_, ?_, ?_, ?_, by rfl, by rfl⟩
  · intro width height box hlen
    match box with
    | [] => rfl
    | [_] => rfl
    | [_, _] => rfl
    | [_, _, _] => rfl
    | [_, _, _, _] => exact absurd rfl hlen
    | _ :: _ :: _ :: _ :: _ :: _ => rfl
  · intro width height l t r b
    by_cases hc : max 0 (min (width : ℤ) (max l r)) ≤ max 0 (min (width : ℤ) (min l r)) ∨
        max 0 (min (height : ℤ) (max t b)) ≤ max 0 (min (height : ℤ) (min t b))
    · rw [hsome width height l t r b hc]
      exact iff_of_true rfl hc
    · rw [hnone width height l t r b hc]
      exact iff_of_false (by simp) hc
  · intro width height l t r b rect hrect
    by_cases hc : max 0 (min (width : ℤ) (max l r)) ≤ max 0 (min (width : ℤ) (min l r)) ∨
        max 0 (min (height : ℤ) (max t b)) ≤ max 0 (min (height : ℤ) (min t b))
    · rw [hsome width height l t r b hc] at hrect
      exact absurd hrect (by simp)
    · rw [hnone width height l t r b hc] at hrect
      injection hrect with hrect
      subst hrect
      push_neg at hc
      dsimp only
      refine ⟨rfl, rfl, rfl, rfl, ?_, ?_, ?_, ?_, ?_, ?_⟩ <;> omega
  · intro width height box_name ocr_boxes box hlook hne
    simp only [crop_box]
    rw [hlook]
    simp only
    rw [if_neg hne]

/-- Witness for the amended C3 at concrete inputs: a two-number box is
rejected; an unconfigured-versus-configured region lookup feeds the box
through `_safe_crop`; and the returned `(10, 10, 50, 50)` rectangle sits
inside the image with positive area. -/
theorem safe_crop_props_witness :
    safe_crop 5 5 [1, 2] = none ∧
    crop_box 200 200 "box".toList [("box".toList, [50, 50, 10, 10])] =
      safe_crop 200 200 [50, 50, 10, 10] ∧
    (0 : ℤ) ≤ (⟨10, 10, 50, 50⟩ : CropRect).left ∧
    (⟨10, 10, 50, 50⟩ : CropRect).left < (⟨10, 10, 50, 50⟩ : CropRect).right := by
  have h3 := safe_crop_props.2.2.1 200 200 50 50 10 10 ⟨10, 10, 50, 50⟩ (by decide)
  exact ⟨safe_crop_props.1 5 5 [1, 2] (by decide),
    safe_crop_props.2.2.2.1 200 200 "box".toList _ [50, 50, 10, 10]
      (by decide) (by decide),
    h3.2.2.2.2.1, h3.2.2.2.2.2.1⟩

/-- C4, counterexample: `execute_steps` does not skip every malformed
step.  A step whose action is the recognized `tap` but which lacks the
`x`/`y` keys raises `KeyError` (`step["x"]`), aborting the remainder of
the sequence — the following well-formed `sleep` step never runs, contrary
to the claim that malformed steps are skipped with a warning. -/
theorem execute_steps_claim_counterexample :
    execute_steps [{ action := some "tap".toList },
                   { action := some "sleep".toList, seconds := some 1 }] 4 =
      Except.error "KeyError" := rfl

/-- C4, amended: for steps that are either skippable (missing or unknown
action tag) or carry the fields their recognized action needs,
`execute_steps` runs the well-formed steps in order, sleeping
`step.delay ?? default_delay` after each tap, swipe and shell action but
not after sleep actions, and skips the tag-less/unknown steps with a
warning; but a recognized tap/swipe step missing a required coordinate
key raises `KeyError` and aborts the remainder of the sequence. -/
theorem execute_steps_spec (steps : List Step) (default_delay : ℚ)
    (h : ∀ st ∈ steps, stepSafe st = true) :
    execute_steps steps default_delay =
      Except.ok ((steps.map (stepTraceSpec default_delay)).join) := by
  induction steps with
  | nil => rfl
  | cons st rest ih =>
    have h1 := stepEvents_safe default_delay st (h st (List.mem_cons_self st rest))
    have h2 := ih (fun s hs => h s (List.mem_cons_of_mem _ hs))
    rw [execute_steps.eq_def]
    dsimp only
    rw [h1, h2]
    rfl

/-- Witness for the amended C4: a concrete sequence of a tap, an
unknown-tag step and a sleep runs without abort and produces exactly the
tap (with its default-delay pause), nothing for the unknown step, and the
sleep's own pause. -/
theorem execute_steps_spec_witness :
    (∀ st ∈ ([{ action := some "tap".toList, x := some 1, y := some 2 },
              { tp := some "unknown".toList },
              { action := some "sleep".toList, seconds := some 3 }] : List Step),
      stepSafe st = true) ∧
    execute_steps
      [{ action := some "tap".toList, x := some 1, y := some 2 },
       { tp := some "unknown".toList },
       { action := some "sleep".toList, seconds := some 3 }] 4 =
      Except.ok ((([{ action := some "tap".toList, x := some 1, y := some 2 },
        { tp := some "unknown".toList },
        { action := some "sleep".toList, seconds := some 3 }] : List Step).map
          (stepTraceSpec 4)).join) :=
  ⟨by decide, execute_steps_spec _ 4 (by decide)⟩

/-- C9: `sanitize_item_name` is idempotent, and its output contains only
allowed characters (Latin/Cyrillic letters, digits, the punctuation
allow-list, spaces), with no adjacent whitespace (hence no two consecutive
spaces) and no leading or trailing whitespace. -/
theorem sanitize_item_name_idempotent (s : Str) :
    sanitize_item_name (sanitize_item_name s) = sanitize_item_name s ∧
    (∀ c ∈ sanitize_item_name s, allowedChar c = true) ∧
    NoWsRun (sanitize_item_name s) ∧
    headIsSpace (sanitize_item_name s) = false ∧
    headIsSpace (sanitize_item_name s).reverse = false :=
  ⟨sanitize_idem s, (sanitize_sanitized s).1, (sanitize_sanitized s).2.1,
   (sanitize_sanitized s).2.2.1, (sanitize_sanitized s).2.2.2⟩

/-- Witness for C9 at a concrete noisy name. -/
theorem sanitize_item_name_idempotent_witness :
    sanitize_item_name (sanitize_item_name "  Ворон --  @@#Raven!!  ".toList) =
      sanitize_item_name "  Ворон --  @@#Raven!!  ".toList :=
  (sanitize_item_name_idempotent "  Ворон --  @@#Raven!!  ".toList).1

/-- C6: `extract_system` strips the raw text; when the first `-` of the
stripped text sits at an index greater than 5 it returns the stripped text
before that dash, and otherwise (first dash at index ≤ 5, or no dash at
all) it returns the stripped whole string. -/
theorem extract_system_spec (raw : Str) :
    ('-' ∉ pyStrip raw → extract_system raw = pyStrip raw) ∧
    (∀ i, i < (pyStrip raw).length → (pyStrip raw).getD i ' ' = '-' →
      '-' ∉ (pyStrip raw).take i →
      (5 < i → extract_system raw = pyStrip ((pyStrip raw).take i)) ∧
      (i ≤ 5 → extract_system raw = pyStrip raw)) := by
  constructor
  · intro h
    simp only [extract_system, pyFind_eq_none h]
  · intro i hi hget hpre
    have hfind := pyFind_spec hi hget hpre
    constructor
    · intro h5
      simp only [extract_system, hfind]
      rw [if_pos h5]
    · intro h5
      simp only [extract_system, hfind]
      rw [if_neg (by omega)]

/-- Witness for C6: `Amarr Prime-X` has its first dash at index 11 > 5 and
is cut there; `J-45` has it at index 1 ≤ 5 and is returned whole. -/
theorem extract_system_spec_witness :
    extract_system "Amarr Prime-X".toList =
      pyStrip ((pyStrip "Amarr Prime-X".toList).take 11) ∧
    extract_system "J-45".toList = pyStrip "J-45".toList :=
  ⟨((extract_system_spec "Amarr Prime-X".toList).2 11 (by decide) (by decide)
      (by decide)).1 (by decide),
   ((extract_system_spec "J-45".toList).2 1 (by decide) (by decide)
      (by decide)).2 (by decide)⟩

/-- C5: every item produced by `parse_lines` comes from a line of the text
that (after stripping and the code's tokenization) yields at least 4
tokens whose two trailing tokens parse as numbers with `,` accepted as a
decimal separator, and whose sanitized joined name is non-empty; the
item's name is that sanitized name — non-empty, containing only allowed
characters and no adjacent (hence no doubled) spaces, with no leading or
trailing whitespace — and its quantity and value are the two parsed
numbers.  Lines failing any condition contribute nothing (the parser is a
total function; nothing is raised). -/
theorem parse_lines_sound (text : Str) (it : ContractItem)
    (hmem : it ∈ parse_lines text) :
    (it.item_name ≠ [] ∧ (∀ c ∈ it.item_name, allowedChar c = true) ∧
     NoWsRun it.item_name ∧ headIsSpace it.item_name = false ∧
     headIsSpace it.item_name.reverse = false) ∧
    ∃ raw, raw ∈ splitlines text ∧ parseLine raw = some it ∧
      4 ≤ (partsOf (pyStrip raw)).length ∧
      pyFloat (commaToDot ((partsOf (pyStrip raw)).getD
        ((partsOf (pyStrip raw)).length - 2) [])) = some it.quantity ∧
      pyFloat (commaToDot ((partsOf (pyStrip raw)).getD
        ((partsOf (pyStrip raw)).length - 1) [])) = some it.est_value ∧
      it.item_name = sanitize_item_name (List.intercalate [' ']
        (((partsOf (pyStrip raw)).drop 1).take
          ((partsOf (pyStrip raw)).length - 3))) := by
  obtain ⟨raw, hraw, hparse⟩ := List.mem_filterMap.mp hmem
  have hs := parseLine_sound hparse
  obtain ⟨hlen, hq, he, hname, hne⟩ := hs
  refine ⟨⟨hne, ?_, ?_, ?_, ?_⟩, raw, hraw, hparse, hlen, hq, he, hname⟩
  · rw [hname]; exact (sanitize_sanitized _).1
  · rw [hname]; exact (sanitize_sanitized _).2.1
  · rw [hname]; exact (sanitize_sanitized _).2.2.1
  · rw [hname]; exact (sanitize_sanitized _).2.2.2

/-- Witness for C5 on a concrete two-line text whose second line is
garbage: exactly the valid line contributes, and its item satisfies all
the stated conditions. -/
theorem parse_lines_sound_witness :
    (⟨"Tritanium".toList, 100, 25⟩ : ContractItem) ∈
      parse_lines "1 Tritanium 100 25\nno numbers here".toList ∧
    ((⟨"Tritanium".toList, 100, 25⟩ : ContractItem).item_name ≠ [] ∧
     (∀ c ∈ (⟨"Tritanium".toList, 100, 25⟩ : ContractItem).item_name,
        allowedChar c = true) ∧
     NoWsRun (⟨"Tritanium".toList, 100, 25⟩ : ContractItem).item_name ∧
     headIsSpace (⟨"Tritanium".toList, 100, 25⟩ : ContractItem).item_name = false ∧
     headIsSpace (⟨"Tritanium".toList, 100, 25⟩ :
        ContractItem).item_name.reverse = false) ∧
    (∃ raw, raw ∈ splitlines "1 Tritanium 100 25\nno numbers here".toList ∧
      parseLine raw = some ⟨"Tritanium".toList, 100, 25⟩ ∧
      4 ≤ (partsOf (pyStrip raw)).length ∧
      pyFloat (commaToDot ((partsOf (pyStrip raw)).getD
        ((partsOf (pyStrip raw)).length - 2) [])) =
        some (⟨"Tritanium".toList, 100, 25⟩ : ContractItem).quantity ∧
      pyFloat (commaToDot ((partsOf (pyStrip raw)).getD
        ((partsOf (pyStrip raw)).length - 1) [])) =
        some (⟨"Tritanium".toList, 100, 25⟩ : ContractItem).est_value ∧
      (⟨"Tritanium".toList, 100, 25⟩ : ContractItem).item_name =
        sanitize_item_name (List.intercalate [' ']
          (((partsOf (pyStrip raw)).drop 1).take
            ((partsOf (pyStrip raw)).length - 3)))) := by
  have hmem : (⟨"Tritanium".toList, 100, 25⟩ : ContractItem) ∈
      parse_lines "1 Tritanium 100 25\nno numbers here".toList := by decide
  have h := parse_lines_sound "1 Tritanium 100 25\nno numbers here".toList
    ⟨"Tritanium".toList, 100, 25⟩ hmem
  exact ⟨hmem, h.1, h.2⟩

end ContractBot
